import Mathlib

/-!
Verification development for the event-filtering core of the krwl-hof
community-events application.

The JavaScript source (assets/js/filters.js, assets/js/app-refactored.js,
assets/js/speech-bubbles.js) is shallowly embedded as follows.

Instants are rational numbers of milliseconds since the Unix epoch, the
exact-arithmetic reading of JavaScript `Date` values (fractional
milliseconds produced by the synodic-month arithmetic are kept exact
rather than clipped to integers; no ordering fact proved here depends on
sub-millisecond clipping).  Local civil time is modelled by a fixed UTC
offset `off` in milliseconds, matching the specification, which states
that a numeric UTC offset is the only supported timezone mechanism (no
DST).  The source reads the wall clock with `new Date()` inside its
functions; the embedding passes that reading as an explicit `now`
argument.  The haversine distance uses Float trigonometry; no claim
depends on its value, so distance computation is an abstract function
parameter `dist` of type `DistFn`.
-/

/-- Milliseconds per day. -/
def msPerDay : ℤ := 86400000

/-- Milliseconds per hour. -/
def msPerHour : ℤ := 3600000

/-- Milliseconds per minute. -/
def msPerMin : ℤ := 60000

/-- Local calendar-day number (days since the epoch, in the fixed-offset
local timezone) of an instant, i.e. the integral part of JS
`date` truncated to local midnight. -/
def localDay (off : ℤ) (t : ℚ) : ℤ := ⌊(t + off) / (msPerDay : ℚ)⌋

/-- Milliseconds elapsed since local midnight at instant `t`. -/
def localMsOfDay (off : ℤ) (t : ℚ) : ℚ := t + off - localDay off t * msPerDay

/-- JS `date.getHours()`: local hour, 0..23. -/
def localHour (off : ℤ) (t : ℚ) : ℤ := ⌊localMsOfDay off t / (msPerHour : ℚ)⌋

/-- Whole local minutes elapsed since local midnight. -/
def localMinutesOfDay (off : ℤ) (t : ℚ) : ℤ := ⌊localMsOfDay off t / (msPerMin : ℚ)⌋

/-- JS `date.getMinutes()`: local minute, 0..59. -/
def localMinute (off : ℤ) (t : ℚ) : ℤ := localMinutesOfDay off t % 60

/-- JS `date.getDay()`: local day of week, 0 = Sunday.  Day 0 of the epoch
(1970-01-01) was a Thursday, weekday 4. -/
def localDow (off : ℤ) (t : ℚ) : ℤ := (localDay off t + 4) % 7

/-- JS `date.setHours(h, m, 0, 0)`: the instant on the same local calendar
day as `t` whose local time of day is `h` hours `m` minutes. -/
def setHM (off : ℤ) (t : ℚ) (h m : ℤ) : ℚ :=
  ((localDay off t * msPerDay + h * msPerHour + m * msPerMin : ℤ) : ℚ) - off

/-- Civil date (year, month 1..12, day 1..31) of a day number, proleptic
Gregorian calendar (the calendar JS `Date` uses); Howard Hinnant style
`civil_from_days` algorithm. -/
def civilFromDays (z : ℤ) : ℤ × ℤ × ℤ :=
  let z := z + 719468
  let era := Int.fdiv z 146097
  let doe := z - era * 146097
  let yoe := (doe - doe / 1460 + doe / 36524 - doe / 146096) / 365
  let y := yoe + era * 400
  let doy := doe - (365 * yoe + yoe / 4 - yoe / 100)
  let mp := (5 * doy + 2) / 153
  let d := doy - (153 * mp + 2) / 5 + 1
  let m := mp + (if mp < 10 then 3 else -9)
  (y + (if m ≤ 2 then 1 else 0), m, d)

/-- Day number of a civil date, inverse of `civilFromDays`. -/
def daysFromCivil (y m d : ℤ) : ℤ :=
  let y := y - (if m ≤ 2 then 1 else 0)
  let era := Int.fdiv y 400
  let yoe := y - era * 400
  let mp := (m + 9) % 12
  let doy := (153 * mp + 2) / 5 + d - 1
  let doe := yoe * 365 + yoe / 4 - yoe / 100 + doy
  era * 146097 + doe - 719468

/-- JS `date.getFullYear()` of an instant in the fixed-offset local time. -/
def localYear (off : ℤ) (t : ℚ) : ℤ := (civilFromDays (localDay off t)).1

/-- EventFilter.getNextSunrise (filters.js): 06:00 of the current local
day, pushed to the next day when the local hour is already ≥ 6. -/
def getNextSunrise (off : ℤ) (now : ℚ) : ℚ :=
  let sunrise := setHM off now 6 0
  if 6 ≤ localHour off now then sunrise + (msPerDay : ℚ) else sunrise

/-- Days until the Sunday used by getNextSundayPrimetime: 0 on a Sunday
before 20:15 local, 7 on a Sunday at or after 20:15, otherwise
`7 - weekday`. -/
def daysUntilSunday (off : ℤ) (now : ℚ) : ℤ :=
  if localDow off now = 0 then
    if 20 * 60 + 15 ≤ localHour off now * 60 + localMinute off now then 7 else 0
  else 7 - localDow off now

/-- EventFilter.getNextSundayPrimetime (filters.js): the next Sunday at
20:15 local time. -/
def getNextSundayPrimetime (off : ℤ) (now : ℚ) : ℚ :=
  setHM off (now + ((daysUntilSunday off now * msPerDay : ℤ) : ℚ)) 20 15

/-- Known full moon reference epoch used by filters.js:
2000-01-06 18:14 UTC, in milliseconds since the Unix epoch. -/
def knownFullMoon : ℚ := 947182440000

/-- Synodic month length in milliseconds (29.53058770576 days), the
`lunarCycle` constant of filters.js. -/
def lunarCycle : ℚ := 29.53058770576 * 86400000

/-- The `while (fullMoon <= nextSunday)` loop of getNextFullMoonMorning:
advance the candidate full-moon instant one synodic month at a time until
it exceeds the target `t`. -/
def moonLoop (t : ℚ) (fm : ℚ) : ℚ :=
  if fm ≤ t then moonLoop t (fm + lunarCycle) else fm
termination_by (⌊(t - fm) / lunarCycle⌋ + 1).toNat
decreasing_by
  have hc : (0 : ℚ) < lunarCycle := by norm_num [lunarCycle]
  have h1 : (0 : ℚ) ≤ (t - fm) / lunarCycle := div_nonneg (by linarith) hc.le
  have h2 : ⌊(t - (fm + lunarCycle)) / lunarCycle⌋ = ⌊(t - fm) / lunarCycle⌋ + (-1 : ℤ) := by
    rw [show (t - (fm + lunarCycle)) / lunarCycle = (t - fm) / lunarCycle + ((-1 : ℤ) : ℚ) by
      field_simp; ring, Int.floor_add_int]
  have h3 : 0 ≤ ⌊(t - fm) / lunarCycle⌋ := Int.floor_nonneg.2 h1
  omega

/-- Midnight beginning the local day of the next Sunday primetime: the
`nextSunday` value of getNextFullMoonMorning after `setHours(0,0,0,0)`. -/
def sundayMidnight (off : ℤ) (now : ℚ) : ℚ :=
  setHM off (getNextSundayPrimetime off now) 0 0

/-- Initial full-moon estimate of getNextFullMoonMorning: the reference
epoch plus `Math.floor((now - knownFullMoon) / lunarCycle)` cycles. -/
def moonStart (now : ℚ) : ℚ :=
  knownFullMoon + (⌊(now - knownFullMoon) / lunarCycle⌋ : ℤ) * lunarCycle

/-- The full-moon instant found by getNextFullMoonMorning before the final
`setHours`: the loop result starting from the floor estimate. -/
def fullMoonInstant (off : ℤ) (now : ℚ) : ℚ :=
  moonLoop (sundayMidnight off now) (moonStart now)

/-- EventFilter.getNextFullMoonMorning (filters.js): 06:00 local on the
calendar day after the first full moon following the next Sunday. -/
def getNextFullMoonMorning (off : ℤ) (now : ℚ) : ℚ :=
  setHM off (fullMoonInstant off now + (msPerDay : ℚ)) 6 0

/-- EventFilter.getMaxEventTime (filters.js): upper bound on event start
times implied by a named time filter, dispatched on the filter string.
The `all` sentinel is local `new Date(year + 10, 11, 31)`, i.e. midnight
of December 31 ten years from the current year. -/
def getMaxEventTime (off : ℤ) (timeFilter : String) (now : ℚ) : ℚ :=
  if timeFilter = "sunrise" then getNextSunrise off now
  else if timeFilter = "sunday-primetime" then getNextSundayPrimetime off now
  else if timeFilter = "full-moon" then getNextFullMoonMorning off now
  else if timeFilter = "6h" then now + ((6 * msPerHour : ℤ) : ℚ)
  else if timeFilter = "12h" then now + ((12 * msPerHour : ℤ) : ℚ)
  else if timeFilter = "24h" then now + ((24 * msPerHour : ℤ) : ℚ)
  else if timeFilter = "48h" then now + ((48 * msPerHour : ℤ) : ℚ)
  else if timeFilter = "all" then
    ((daysFromCivil (localYear off now + 10) 12 31 * msPerDay : ℤ) : ℚ) - off
  else getNextSunrise off now

/-- Geographic coordinate pair, the `{lat, lon}` objects of the source. -/
structure Loc where
  lat : ℚ
  lon : ℚ
deriving DecidableEq

/-- Event record as consumed by EventFilter.filterEvents: identifier
(possibly absent), title, optional category, parsed start instant
(`new Date(event.start_time)` as a rational millisecond count), optional
location, and the mutable `distance` annotation written by the filter. -/
structure Event where
  id : Option String
  title : String
  category : Option String
  start_time : ℚ
  location : Option Loc
  distance : Option ℚ
deriving DecidableEq

/-- Filter settings object: `filters.timeFilter`, `filters.maxDistance`,
`filters.category`. -/
structure Filters where
  timeFilter : String
  maxDistance : ℚ
  category : String

/-- Abstract great-circle distance function standing for
EventFilter.calculateDistance (haversine with Float trigonometry); the
claims proved here hold for every such function. -/
def DistFn : Type := ℚ → ℚ → ℚ → ℚ → ℚ

/-- One pass of the predicate body of EventFilter.filterEvents over a
single event: returns the event as left in the caller's array (the
source writes `event.distance` in place on the original object) together
with the inclusion decision. -/
def filterStep (dist : DistFn) (isBookmarked : Option String → Bool)
    (maxEventTime maxDistance : ℚ) (category : String) (ref : Option Loc)
    (e : Event) : Event × Bool :=
  if isBookmarked e.id then
    match ref, e.location with
    | some r, some l => ({ e with distance := some (dist r.lat r.lon l.lat l.lon) }, true)
    | _, _ => (e, true)
  else if maxEventTime < e.start_time then (e, false)
  else if category ≠ "all" ∧ e.category ≠ some category then (e, false)
  else
    match ref, e.location with
    | some r, some l =>
      let d := dist r.lat r.lon l.lat l.lon
      if maxDistance < d then ({ e with distance := some d }, false)
      else ({ e with distance := some d }, true)
    | _, _ => (e, true)

/-- EventFilter.filterEvents (filters.js): the returned filtered list.
`Array.prototype.filter` keeps the original object references, so the
elements are the in-place-updated originals. -/
def filterEvents (dist : DistFn) (isBookmarked : Option String → Bool) (off : ℤ)
    (events : List Event) (filters : Filters) (ref : Option Loc) (now : ℚ) : List Event :=
  let maxEventTime := getMaxEventTime off filters.timeFilter now
  events.filterMap (fun e =>
    let r := filterStep dist isBookmarked maxEventTime filters.maxDistance filters.category ref e
    if r.2 then some r.1 else none)

/-- Contents of the caller's `events` array after filterEvents returns:
each element as mutated (or not) by the predicate body. -/
def filterEventsPost (dist : DistFn) (isBookmarked : Option String → Bool) (off : ℤ)
    (events : List Event) (filters : Filters) (ref : Option Loc) (now : ℚ) : List Event :=
  let maxEventTime := getMaxEventTime off filters.timeFilter now
  events.map (fun e =>
    (filterStep dist isBookmarked maxEventTime filters.maxDistance filters.category ref e).1)

/-- Inclusion decision of the per-event body of
EventFilter.countCategoriesUnderFilters: bookmarked events always count;
otherwise the temporal gate and, when both locations are present, the
spatial gate apply (the category gate is ignored and `event.distance` is
not written). -/
def countKeep (dist : DistFn) (isBookmarked : Option String → Bool)
    (maxEventTime maxDistance : ℚ) (ref : Option Loc) (e : Event) : Bool :=
  if isBookmarked e.id then true
  else if maxEventTime < e.start_time then false
  else
    match ref, e.location with
    | some r, some l => !(maxDistance < dist r.lat r.lon l.lat l.lon)
    | _, _ => true

/-- JS `event.category || 'uncategorized'`: the category string, with a
missing or empty (falsy) category replaced by "uncategorized". -/
def catOf (e : Event) : String :=
  match e.category with
  | some c => if c = "" then "uncategorized" else c
  | none => "uncategorized"

/-- Increment the tally for key `k` in an association list, appending a
fresh entry when absent: `categoryCounts[cat] = (categoryCounts[cat] || 0) + 1`
on a JS object with insertion-ordered keys. -/
def bump (m : List (String × ℕ)) (k : String) : List (String × ℕ) :=
  match m with
  | [] => [(k, 1)]
  | (k', n) :: rest => if k' = k then (k', n + 1) :: rest else (k', n) :: bump rest k

/-- EventFilter.countCategoriesUnderFilters (filters.js): category
frequency map under the temporal and spatial gates, ignoring the
categorical gate. -/
def countCategoriesUnderFilters (dist : DistFn) (isBookmarked : Option String → Bool)
    (off : ℤ) (events : List Event) (filters : Filters) (ref : Option Loc) (now : ℚ) :
    List (String × ℕ) :=
  let maxEventTime := getMaxEventTime off filters.timeFilter now
  events.foldl (fun m e =>
    if countKeep dist isBookmarked maxEventTime filters.maxDistance ref e
    then bump m (catOf e) else m) []

/-- Degenerate distance function (constant 0) used for concrete instances. -/
def dist0 : DistFn := fun _ _ _ _ => 0

/-- Constant distance function returning 5 km, used for concrete instances. -/
def dist5 : DistFn := fun _ _ _ _ => 5

/-- Bookmark store with no bookmarks. -/
def noBookmarks : Option String → Bool := fun _ => false

/-- Concrete event starting 7 hours after the epoch, no location. -/
def evA : Event := ⟨some "a", "X", some "music", 25200000, none, none⟩

/-- Concrete event starting at the epoch with a location and no distance
annotation. -/
def evLoc : Event := ⟨some "b", "Y", some "music", 0, some ⟨0, 0⟩, none⟩

/-- JS `title.toLowerCase().trim()`: the normalized title used as (part
of) the deduplication key. -/
def normTitle (s : String) : String := s.toLower.trim

/-- Identity key actually used by deduplicateEvents (app-refactored.js):
the pair of normalized title and exact start time, modelling the string
key `title + "|" + startTime`. -/
def eventKey (e : Event) : String × ℚ := (normTitle e.title, e.start_time)

/-- The `{event, marker, originalIndex}` items built by
showAllSpeechBubbles before deduplication (the marker is UI state with no
bearing on grouping and is omitted). -/
structure BubbleItem where
  originalIndex : ℕ
  event : Event
deriving DecidableEq

/-- A deduplication group: the first-seen item (spread into the group
record by the source), its running duplicate count, and the events
collected under the same key in input order. -/
structure BubbleGroup where
  item : BubbleItem
  duplicateCount : ℕ
  duplicates : List Event
deriving DecidableEq

/-- One upsert into the insertion-ordered map of deduplicateEvents
(app-refactored.js): a matching key increments the count and appends the
event; a fresh key appends a new group at the end. -/
def insertItem (gs : List BubbleGroup) (it : BubbleItem) : List BubbleGroup :=
  match gs with
  | [] => [⟨it, 1, [it.event]⟩]
  | g :: rest =>
    if eventKey g.item.event = eventKey it.event then
      ⟨g.item, g.duplicateCount + 1, g.duplicates ++ [it.event]⟩ :: rest
    else g :: insertItem rest it

/-- EventManager.deduplicateEvents (app-refactored.js): fold the items
into key groups, preserving first-seen insertion order. -/
def deduplicateEvents (items : List BubbleItem) : List BubbleGroup :=
  items.foldl insertItem []

/-- The `eventsToShow.map((event, index) => ({event, marker, originalIndex: index}))`
step of showAllSpeechBubbles. -/
def mkItems (events : List Event) : List BubbleItem :=
  events.enum.map (fun p => ⟨p.1, p.2⟩)

/-- The deduplication portion of showAllSpeechBubbles
(app-refactored.js): truncate to the first 30 events (maxBubbles), build
indexed items, then deduplicate. -/
def showAllSpeechBubblesGroups (events : List Event) : List BubbleGroup :=
  deduplicateEvents (mkItems (events.take 30))

/-- Identity key in the words of the claim (C1): the identifier when
present, otherwise the composite of normalized title, exact start time
and exact location coordinates.  Stated for comparison with `eventKey`,
the key the source actually uses. -/
def claimIdentityKey (e : Event) : String ⊕ (String × ℚ × Option Loc) :=
  match e.id with
  | some i => Sum.inl i
  | none => Sum.inr (normTitle e.title, e.start_time, e.location)

/-- Concrete event for dedup instances: identifier "a", location (0,0). -/
def evDup1 : Event := ⟨some "a", "Market Day", some "music", 0, some ⟨0, 0⟩, none⟩

/-- Concrete event for dedup instances: identifier "b", same title and
start time as `evDup1` but different coordinates. -/
def evDup2 : Event := ⟨some "b", "Market Day", some "music", 0, some ⟨1, 1⟩, none⟩

/-- JS `String(n).padStart(2, "0")`. -/
def padStr2 (s : String) : String := if s.length < 2 then "0" ++ s else s

/-- Two-digit zero padding of an integer. -/
def pad2 (n : ℤ) : String := padStr2 (toString n)

/-- EventUtils.formatDateTime (app-refactored.js): ISO 8601 local
date-time without timezone,
`year-month-day T hours:minutes:seconds` with two-digit padding
(month is `getMonth() + 1`, which `civilFromDays` already yields). -/
def formatDateTime (off : ℤ) (t : ℚ) : String :=
  let ymd := civilFromDays (localDay off t)
  toString ymd.1 ++ "-" ++ pad2 ymd.2.1 ++ "-" ++ pad2 ymd.2.2 ++ "T"
    ++ pad2 (localHour off t) ++ ":" ++ pad2 (localMinute off t) ++ ":"
    ++ pad2 (⌊localMsOfDay off t / (1000 : ℚ)⌋ % 60)

/-- JS truncation toward zero, the behavior of the remainder operator
`tzOffset % 1` (remainder keeps the sign of the dividend). -/
def jsTrunc (q : ℚ) : ℤ := if 0 ≤ q then ⌊q⌋ else ⌈q⌉

/-- Decimal rendering of the minutes value in the timezone suffix;
integral rationals print like JS integers. -/
def ratString (q : ℚ) : String := if q.den = 1 then toString q.num else toString q

/-- The timezone suffix built by processTemplateEvents:
sign, `Math.abs(Math.floor(tzOffset))` hours, and
`Math.abs((tzOffset % 1) * 60)` minutes, each padded to two digits. -/
def tzString (tz : ℚ) : String :=
  let sign := if 0 ≤ tz then "+" else "-"
  let hours := (⌊tz⌋).natAbs
  let minutes := |(tz - jsTrunc tz) * 60|
  sign ++ padStr2 (toString hours) ++ ":" ++ padStr2 (ratString minutes)

/-- The `relative_time` tagged union of template events.  Numeric fields
are optional; absent fields behave as zero (the source guards each
addition with a JS truthiness test, and adding zero is the identity). -/
structure RelSpec where
  type : String
  hours : Option ℤ
  minutes : Option ℤ
  duration_hours : Option ℚ
  timezone_offset : Option ℚ
  start_offset_hours : Option ℤ
  start_offset_minutes : Option ℤ
  end_offset_hours : Option ℤ
  end_offset_minutes : Option ℤ
deriving DecidableEq

/-- Template-event record as consumed by
EventUtils.processTemplateEvents: serialized start and end time strings,
the publication stamp, and the optional relative-time spec. -/
structure TEvent where
  id : Option String
  title : String
  start_time : String
  end_time : String
  published_at : Option String
  relative_time : Option RelSpec
deriving DecidableEq

/-- Per-event body of EventUtils.processTemplateEvents
(app-refactored.js).  Events without a `relative_time` pass through
untouched.  With a spec of type "offset" the start is `now` plus the
hour and minute offsets and the end adds `duration_hours || 2` hours;
with "sunrise_relative" both ends are offsets from getNextSunrise; any
other type leaves the timestamps as they are.  Every spec-bearing event
gets `published_at` stamped with the formatted `now`; `relative_time`
itself is never removed. -/
def processOne (off : ℤ) (now : ℚ) (e : TEvent) : TEvent :=
  match e.relative_time with
  | none => e
  | some spec =>
    if spec.type = "offset" then
      let startTime := now + ((spec.hours.getD 0 * msPerHour : ℤ) : ℚ)
          + ((spec.minutes.getD 0 * msPerMin : ℤ) : ℚ)
      let durationHours := match spec.duration_hours with
        | some d => if d = 0 then 2 else d
        | none => 2
      let endTime := startTime + durationHours * ((msPerHour : ℤ) : ℚ)
      let tz := spec.timezone_offset.getD 0
      if tz ≠ 0 then
        { e with start_time := formatDateTime off startTime ++ tzString tz,
                 end_time := formatDateTime off endTime ++ tzString tz,
                 published_at := some (formatDateTime off now) }
      else
        { e with start_time := formatDateTime off startTime,
                 end_time := formatDateTime off endTime,
                 published_at := some (formatDateTime off now) }
    else if spec.type = "sunrise_relative" then
      let sunrise := getNextSunrise off now
      let startTime := sunrise + ((spec.start_offset_hours.getD 0 * msPerHour : ℤ) : ℚ)
          + ((spec.start_offset_minutes.getD 0 * msPerMin : ℤ) : ℚ)
      let endTime := sunrise + ((spec.end_offset_hours.getD 0 * msPerHour : ℤ) : ℚ)
          + ((spec.end_offset_minutes.getD 0 * msPerMin : ℤ) : ℚ)
      { e with start_time := formatDateTime off startTime,
               end_time := formatDateTime off endTime,
               published_at := some (formatDateTime off now) }
    else
      { e with published_at := some (formatDateTime off now) }

/-- EventUtils.processTemplateEvents (app-refactored.js): map the
per-event materialization over the list. -/
def processTemplateEvents (off : ℤ) (now : ℚ) (events : List TEvent) : List TEvent :=
  events.map (processOne off now)

/-- Relative-time spec with an unrecognized type. -/
def specUnknown : RelSpec := ⟨"mystery", none, none, none, none, none, none, none, none⟩

/-- Template event carrying an unknown-typed spec and fixed original
timestamps. -/
def tevUnknown : TEvent :=
  ⟨some "t1", "Demo", "2026-01-01T00:00:00", "2026-01-01T02:00:00", none, some specUnknown⟩

/-- Offset-typed spec: starts 30 minutes in the past, lasts 2 hours. -/
def specOffset : RelSpec := ⟨"offset", none, some (-30), some 2, none, none, none, none, none⟩

/-- Template event carrying the offset spec. -/
def tevOffset : TEvent := ⟨some "t2", "Demo2", "x", "y", none, some specOffset⟩

/-- First input item whose deduplication key equals `k` (JS Map.set keeps
the first-inserted value for a key, so this is the representative the
source retains). -/
def keyFind (items : List BubbleItem) (k : String × ℚ) : Option BubbleItem :=
  items.find? (fun it => eventKey it.event = k)

theorem lunarCycle_pos : (0 : ℚ) < lunarCycle := by norm_num [lunarCycle]

theorem msPerDay_pos : (0 : ℚ) < (msPerDay : ℚ) := by norm_num [msPerDay]

theorem localMsOfDay_nonneg (off : ℤ) (t : ℚ) : 0 ≤ localMsOfDay off t := by
  have h := Int.floor_le ((t + off) / (msPerDay : ℚ))
  have h2 := (le_div_iff msPerDay_pos).1 h
  simp only [localMsOfDay, localDay]
  linarith

theorem localMsOfDay_lt (off : ℤ) (t : ℚ) : localMsOfDay off t < (msPerDay : ℚ) := by
  have h := Int.lt_floor_add_one ((t + off) / (msPerDay : ℚ))
  have h2 := (div_lt_iff msPerDay_pos).1 h
  simp only [localMsOfDay, localDay]
  push_cast at h2 ⊢
  linarith

theorem localDay_mono (off : ℤ) {s t : ℚ} (h : s ≤ t) : localDay off s ≤ localDay off t := by
  apply Int.floor_le_floor
  have := msPerDay_pos
  gcongr

theorem localDay_base (off d x : ℤ) (h0 : 0 ≤ x) (h1 : x < msPerDay) :
    localDay off (((d * msPerDay + x : ℤ) : ℚ) - off) = d := by
  have hx0 : (0 : ℚ) ≤ (x : ℤ) := by exact_mod_cast h0
  have hx1 : ((x : ℤ) : ℚ) < (msPerDay : ℚ) := by exact_mod_cast h1
  simp only [localDay, sub_add_cancel]
  rw [Int.floor_eq_iff]
  constructor
  · rw [le_div_iff msPerDay_pos]
    push_cast
    nlinarith [msPerDay_pos]
  · rw [div_lt_iff msPerDay_pos]
    push_cast
    nlinarith [msPerDay_pos]

theorem localMsOfDay_base (off d x : ℤ) (h0 : 0 ≤ x) (h1 : x < msPerDay) :
    localMsOfDay off (((d * msPerDay + x : ℤ) : ℚ) - off) = x := by
  simp only [localMsOfDay, localDay_base off d x h0 h1]
  push_cast
  ring

theorem localDay_add_days (off : ℤ) (t : ℚ) (k : ℤ) :
    localDay off (t + ((k * msPerDay : ℤ) : ℚ)) = localDay off t + k := by
  have hD : (msPerDay : ℚ) ≠ 0 := ne_of_gt msPerDay_pos
  simp only [localDay]
  rw [show (t + ((k * msPerDay : ℤ) : ℚ) + off) / (msPerDay : ℚ)
      = (t + off) / (msPerDay : ℚ) + (k : ℚ) by field_simp; ring]
  exact Int.floor_add_int _ _

theorem localMsOfDay_add_days (off : ℤ) (t : ℚ) (k : ℤ) :
    localMsOfDay off (t + ((k * msPerDay : ℤ) : ℚ)) = localMsOfDay off t := by
  simp only [localMsOfDay, localDay_add_days]
  push_cast
  ring

theorem setHM_eq_base (off : ℤ) (t : ℚ) (h m : ℤ) :
    setHM off t h m = ((localDay off t * msPerDay + (h * msPerHour + m * msPerMin) : ℤ) : ℚ) - off := by
  simp only [setHM]
  push_cast
  ring

theorem localDay_setHM (off : ℤ) (t : ℚ) (h m : ℤ)
    (h0 : 0 ≤ h * msPerHour + m * msPerMin) (h1 : h * msPerHour + m * msPerMin < msPerDay) :
    localDay off (setHM off t h m) = localDay off t := by
  rw [setHM_eq_base]
  exact localDay_base off _ _ h0 h1

theorem localMsOfDay_setHM (off : ℤ) (t : ℚ) (h m : ℤ)
    (h0 : 0 ≤ h * msPerHour + m * msPerMin) (h1 : h * msPerHour + m * msPerMin < msPerDay) :
    localMsOfDay off (setHM off t h m) = ((h * msPerHour + m * msPerMin : ℤ) : ℚ) := by
  rw [setHM_eq_base]
  exact localMsOfDay_base off _ _ h0 h1

/-- C4: for every `now` whose local hour is strictly below 6 the sunrise
boundary lies on the same local day with time of day exactly 06:00:00,
and for every `now` with local hour at least 6 (including exactly 06:00)
it lies on the next local day at 06:00:00. -/
theorem sunrise_boundary_rule (off : ℤ) (now : ℚ) :
    (localHour off now < 6 →
      localDay off (getNextSunrise off now) = localDay off now ∧
      localMsOfDay off (getNextSunrise off now) = ((6 * msPerHour : ℤ) : ℚ)) ∧
    (6 ≤ localHour off now →
      localDay off (getNextSunrise off now) = localDay off now + 1 ∧
      localMsOfDay off (getNextSunrise off now) = ((6 * msPerHour : ℤ) : ℚ)) := by
  have hb0 : (0 : ℤ) ≤ 6 * msPerHour + 0 * msPerMin := by norm_num [msPerHour, msPerMin]
  have hb1 : 6 * msPerHour + 0 * msPerMin < msPerDay := by norm_num [msPerHour, msPerMin, msPerDay]
  constructor
  · intro h
    have hif : ¬ 6 ≤ localHour off now := not_le.2 h
    simp only [getNextSunrise, if_neg hif]
    refine ⟨localDay_setHM off now 6 0 hb0 hb1 |>.trans rfl, ?_⟩
    rw [localMsOfDay_setHM off now 6 0 hb0 hb1]
    norm_num
  · intro h
    simp only [getNextSunrise, if_pos h]
    rw [show ((msPerDay : ℤ) : ℚ) = (((1 : ℤ) * msPerDay : ℤ) : ℚ) by push_cast; ring]
    rw [localDay_add_days, localMsOfDay_add_days, localDay_setHM off now 6 0 hb0 hb1,
      localMsOfDay_setHM off now 6 0 hb0 hb1]
    norm_num

/-- Witness for C4: at `now = 0` (hour 0, before 6) the boundary is the
same day at 06:00; at `now` = 7h into the epoch day (hour 7) it is the
next day at 06:00. -/
theorem sunrise_boundary_rule_witness :
    (localHour 0 0 < 6 ∧
      localDay 0 (getNextSunrise 0 0) = localDay 0 0 ∧
      localMsOfDay 0 (getNextSunrise 0 0) = ((6 * msPerHour : ℤ) : ℚ)) ∧
    (6 ≤ localHour 0 25200000 ∧
      localDay 0 (getNextSunrise 0 25200000) = localDay 0 25200000 + 1 ∧
      localMsOfDay 0 (getNextSunrise 0 25200000) = ((6 * msPerHour : ℤ) : ℚ)) := by
  have h1 : localHour 0 0 < 6 := by
    norm_num [localHour, localMsOfDay, localDay, msPerDay, msPerHour]
  have h2 : 6 ≤ localHour 0 25200000 := by
    norm_num [localHour, localMsOfDay, localDay, msPerDay, msPerHour]
  exact ⟨⟨h1, (sunrise_boundary_rule 0 0).1 h1⟩, ⟨h2, (sunrise_boundary_rule 0 25200000).2 h2⟩⟩

theorem moonLoop_gt (t fm : ℚ) : t < moonLoop t fm := by
  induction fm using moonLoop.induct (t := t) with
  | case1 x h ih => rw [moonLoop, if_pos h]; exact ih
  | case2 x h => rw [moonLoop, if_neg h]; exact lt_of_not_le h

theorem moonLoop_eq_of_not_le (t fm : ℚ) (h : ¬ fm ≤ t) : moonLoop t fm = fm := by
  rw [moonLoop, if_neg h]

theorem moonLoop_steps (t fm : ℚ) : ∃ n : ℕ, moonLoop t fm = fm + (n : ℚ) * lunarCycle := by
  induction fm using moonLoop.induct (t := t) with
  | case1 x h ih =>
    obtain ⟨n, hn⟩ := ih
    exact ⟨n + 1, by rw [moonLoop, if_pos h, hn]; push_cast; ring⟩
  | case2 x h => exact ⟨0, by rw [moonLoop, if_neg h]; push_cast; ring⟩

theorem floor_cycle_step (t x : ℚ) :
    ⌊(t - (x + lunarCycle)) / lunarCycle⌋ = ⌊(t - x) / lunarCycle⌋ - 1 := by
  have hc : lunarCycle ≠ 0 := ne_of_gt lunarCycle_pos
  rw [show (t - (x + lunarCycle)) / lunarCycle = (t - x) / lunarCycle + ((-1 : ℤ) : ℚ) by
    field_simp; ring, Int.floor_add_int]
  omega

theorem moonLoop_closed (t fm : ℚ) :
    fm ≤ t → moonLoop t fm = fm + ((⌊(t - fm) / lunarCycle⌋ + 1 : ℤ) : ℚ) * lunarCycle := by
  induction fm using moonLoop.induct (t := t) with
  | case1 x h1 ih =>
    intro _
    rw [moonLoop, if_pos h1]
    by_cases h2 : x + lunarCycle ≤ t
    · rw [ih h2, floor_cycle_step]
      push_cast
      ring
    · rw [moonLoop_eq_of_not_le t _ h2]
      have hf : ⌊(t - x) / lunarCycle⌋ = 0 := by
        rw [Int.floor_eq_zero_iff]
        constructor
        · exact div_nonneg (by linarith) lunarCycle_pos.le
        · rw [div_lt_one lunarCycle_pos]
          linarith [lt_of_not_le h2]
      rw [hf]
      push_cast
      ring
  | case2 x h1 => intro h; exact absurd h h1

/-- C10: the full-moon search loop terminates.  The loop result equals the
initial floor estimate plus finitely many whole synodic-month increments,
and it strictly exceeds the reference Sunday midnight, so
`getNextFullMoonMorning` is a total function of `now`. -/
theorem full_moon_search_terminates (off : ℤ) (now : ℚ) :
    (∃ n : ℕ, fullMoonInstant off now = moonStart now + (n : ℚ) * lunarCycle) ∧
    sundayMidnight off now < fullMoonInstant off now :=
  ⟨moonLoop_steps _ _, moonLoop_gt _ _⟩

theorem sundayDay_primetime (off : ℤ) (now : ℚ) :
    localDay off (getNextSundayPrimetime off now)
      = localDay off now + daysUntilSunday off now := by
  have hb0 : (0 : ℤ) ≤ 20 * msPerHour + 15 * msPerMin := by norm_num [msPerHour, msPerMin]
  have hb1 : 20 * msPerHour + 15 * msPerMin < msPerDay := by
    norm_num [msPerHour, msPerMin, msPerDay]
  unfold getNextSundayPrimetime
  rw [localDay_setHM off _ 20 15 hb0 hb1, localDay_add_days]

theorem sundayMidnight_eq (off : ℤ) (now : ℚ) :
    sundayMidnight off now
      = (((localDay off now + daysUntilSunday off now) * msPerDay : ℤ) : ℚ) - off := by
  unfold sundayMidnight
  rw [setHM_eq_base, sundayDay_primetime]
  push_cast
  ring

theorem floor_div_sixty (x : ℚ) : ⌊x / ((60 : ℤ) : ℚ)⌋ = ⌊x⌋ / 60 := by
  have hnq : (0 : ℚ) < ((60 : ℤ) : ℚ) := by norm_num
  have hfl := Int.floor_le x
  have hfu := Int.lt_floor_add_one x
  rw [Int.floor_eq_iff]
  constructor
  · rw [le_div_iff hnq]
    have h : ((⌊x⌋ / 60 : ℤ) : ℚ) * ((60 : ℤ) : ℚ) ≤ ((⌊x⌋ : ℤ) : ℚ) := by
      exact_mod_cast (by omega : (⌊x⌋ / 60) * 60 ≤ ⌊x⌋)
    linarith
  · rw [div_lt_iff hnq]
    have h : ((⌊x⌋ : ℤ) : ℚ) + 1 ≤ ((⌊x⌋ / 60 + 1 : ℤ) : ℚ) * ((60 : ℤ) : ℚ) := by
      exact_mod_cast (by omega : ⌊x⌋ + 1 ≤ (⌊x⌋ / 60 + 1) * 60)
    push_cast at h ⊢
    linarith

theorem currentTimeMin_eq (off : ℤ) (t : ℚ) :
    localHour off t * 60 + localMinute off t = localMinutesOfDay off t := by
  have h1 : localHour off t = localMinutesOfDay off t / 60 := by
    unfold localHour localMinutesOfDay
    rw [show localMsOfDay off t / (msPerHour : ℚ)
        = localMsOfDay off t / (msPerMin : ℚ) / ((60 : ℤ) : ℚ) by
      rw [div_div]; norm_num [msPerHour, msPerMin]]
    rw [floor_div_sixty]
  unfold localMinute
  omega

theorem minutesOfDay_mono_same_day (off : ℤ) {s t : ℚ}
    (hd : localDay off s = localDay off t) (h : s ≤ t) :
    localMinutesOfDay off s ≤ localMinutesOfDay off t := by
  have hms : localMsOfDay off s ≤ localMsOfDay off t := by
    unfold localMsOfDay
    rw [hd]
    linarith
  apply Int.floor_le_floor
  have hM : (0 : ℚ) < (msPerMin : ℚ) := by norm_num [msPerMin]
  exact (div_le_div_right hM).2 hms

theorem sundayDay_mono (off : ℤ) {s t : ℚ} (h : s ≤ t) :
    localDay off s + daysUntilSunday off s ≤ localDay off t + daysUntilSunday off t := by
  have hd := localDay_mono off h
  rcases eq_or_lt_of_le hd with heq | hlt
  · have hdow : localDow off s = localDow off t := by unfold localDow; rw [heq]
    have htod : localHour off s * 60 + localMinute off s
        ≤ localHour off t * 60 + localMinute off t := by
      rw [currentTimeMin_eq, currentTimeMin_eq]
      exact minutesOfDay_mono_same_day off heq h
    unfold daysUntilSunday
    split_ifs <;> omega
  · unfold daysUntilSunday localDow
    split_ifs <;> omega

theorem sundayMidnight_mono (off : ℤ) {s t : ℚ} (h : s ≤ t) :
    sundayMidnight off s ≤ sundayMidnight off t := by
  rw [sundayMidnight_eq, sundayMidnight_eq]
  have hsum := sundayDay_mono off h
  have hD : (0 : ℤ) ≤ msPerDay := by norm_num [msPerDay]
  have hmul : (localDay off s + daysUntilSunday off s) * msPerDay
      ≤ (localDay off t + daysUntilSunday off t) * msPerDay :=
    mul_le_mul_of_nonneg_right hsum hD
  have hcast : (((localDay off s + daysUntilSunday off s) * msPerDay : ℤ) : ℚ)
      ≤ (((localDay off t + daysUntilSunday off t) * msPerDay : ℤ) : ℚ) := by
    exact_mod_cast hmul
  linarith

theorem moonStart_le (now : ℚ) : moonStart now ≤ now := by
  unfold moonStart
  have h := Int.floor_le ((now - knownFullMoon) / lunarCycle)
  have h2 := (le_div_iff lunarCycle_pos).1 h
  linarith

theorem moonStart_mono {s t : ℚ} (h : s ≤ t) : moonStart s ≤ moonStart t := by
  unfold moonStart
  have hf : ⌊(s - knownFullMoon) / lunarCycle⌋ ≤ ⌊(t - knownFullMoon) / lunarCycle⌋ := by
    apply Int.floor_le_floor
    exact (div_le_div_right lunarCycle_pos).2 (by linarith)
  have := mul_le_mul_of_nonneg_right
    (show ((⌊(s - knownFullMoon) / lunarCycle⌋ : ℤ) : ℚ) ≤ ((⌊(t - knownFullMoon) / lunarCycle⌋ : ℤ) : ℚ) by
      exact_mod_cast hf) lunarCycle_pos.le
  linarith

theorem moonStart_lattice (s t : ℚ) : ∃ m : ℤ, moonStart t = moonStart s + (m : ℚ) * lunarCycle := by
  refine ⟨⌊(t - knownFullMoon) / lunarCycle⌋ - ⌊(s - knownFullMoon) / lunarCycle⌋, ?_⟩
  unfold moonStart
  push_cast
  ring

theorem moonLoop_mono {t₁ t₂ s₁ s₂ : ℚ} (ht : t₁ ≤ t₂) (hs : s₁ ≤ s₂)
    (m : ℤ) (hm : s₂ = s₁ + (m : ℚ) * lunarCycle) :
    moonLoop t₁ s₁ ≤ moonLoop t₂ s₂ := by
  by_cases h1 : s₁ ≤ t₁ <;> by_cases h2 : s₂ ≤ t₂
  · rw [moonLoop_closed t₁ s₁ h1, moonLoop_closed t₂ s₂ h2]
    have key : ⌊(t₁ - s₁) / lunarCycle⌋ ≤ ⌊(t₂ - s₂) / lunarCycle⌋ + m := by
      rw [show ⌊(t₂ - s₂) / lunarCycle⌋ + m = ⌊(t₂ - s₂) / lunarCycle + (m : ℚ)⌋ from
        (Int.floor_add_int _ _).symm]
      apply Int.floor_le_floor
      have hrw : (t₂ - s₂) / lunarCycle + (m : ℚ) = (t₂ - s₁) / lunarCycle := by
        rw [hm, show t₂ - (s₁ + (m : ℚ) * lunarCycle)
            = (t₂ - s₁) - (m : ℚ) * lunarCycle by ring, sub_div,
          mul_div_cancel_right₀ _ (ne_of_gt lunarCycle_pos)]
        ring
      rw [hrw]
      exact (div_le_div_right lunarCycle_pos).2 (by linarith)
    have hcast : ((⌊(t₁ - s₁) / lunarCycle⌋ + 1 : ℤ) : ℚ)
        ≤ ((m + (⌊(t₂ - s₂) / lunarCycle⌋ + 1) : ℤ) : ℚ) := by
      exact_mod_cast (by omega : ⌊(t₁ - s₁) / lunarCycle⌋ + 1 ≤ m + (⌊(t₂ - s₂) / lunarCycle⌋ + 1))
    have hmul := mul_le_mul_of_nonneg_right hcast lunarCycle_pos.le
    push_cast at hmul
    push_cast
    linarith [hm, hmul]
  · rw [moonLoop_closed t₁ s₁ h1, moonLoop_eq_of_not_le t₂ s₂ h2]
    have hlt : t₁ < s₂ := lt_of_le_of_lt ht (lt_of_not_le h2)
    have hF : ⌊(t₁ - s₁) / lunarCycle⌋ < m := by
      rw [Int.floor_lt]
      rw [div_lt_iff lunarCycle_pos]
      rw [hm] at hlt
      linarith
    have hcast : ((⌊(t₁ - s₁) / lunarCycle⌋ + 1 : ℤ) : ℚ) ≤ ((m : ℤ) : ℚ) := by
      exact_mod_cast (by omega : ⌊(t₁ - s₁) / lunarCycle⌋ + 1 ≤ m)
    have hmul := mul_le_mul_of_nonneg_right hcast lunarCycle_pos.le
    push_cast at hmul
    rw [hm]
    push_cast
    linarith
  · rw [moonLoop_eq_of_not_le t₁ s₁ h1]
    have := moonLoop_gt t₂ s₂
    linarith [hs, h2]
  · rw [moonLoop_eq_of_not_le t₁ s₁ h1, moonLoop_eq_of_not_le t₂ s₂ h2]
    exact hs

theorem fullMoon_mono (off : ℤ) {s t : ℚ} (h : s ≤ t) :
    fullMoonInstant off s ≤ fullMoonInstant off t := by
  obtain ⟨m, hm⟩ := moonStart_lattice s t
  exact moonLoop_mono (sundayMidnight_mono off h) (moonStart_mono h) m hm

theorem moonMorning_eq (off : ℤ) (now : ℚ) :
    getNextFullMoonMorning off now
      = (((localDay off (fullMoonInstant off now) + 1) * msPerDay + 6 * msPerHour : ℤ) : ℚ) - off := by
  unfold getNextFullMoonMorning
  rw [setHM_eq_base]
  rw [show fullMoonInstant off now + (msPerDay : ℚ)
      = fullMoonInstant off now + (((1 : ℤ) * msPerDay : ℤ) : ℚ) by push_cast; ring]
  rw [localDay_add_days]
  push_cast
  ring

/-- C5: the full-moon boundary (06:00 on the day after the first full
moon found by whole synodic-month steps from the reference epoch) is
strictly after the midnight beginning the Sunday-primetime Sunday, and
is monotonically non-decreasing as `now` advances. -/
theorem full_moon_boundary_rule (off : ℤ) (now₁ now₂ : ℚ) (h : now₁ ≤ now₂) :
    sundayMidnight off now₁ < getNextFullMoonMorning off now₁ ∧
    getNextFullMoonMorning off now₁ ≤ getNextFullMoonMorning off now₂ := by
  constructor
  · have h1 : sundayMidnight off now₁ < fullMoonInstant off now₁ := moonLoop_gt _ _
    have h2 : fullMoonInstant off now₁ < getNextFullMoonMorning off now₁ := by
      rw [moonMorning_eq]
      have hlt := localMsOfDay_lt off (fullMoonInstant off now₁)
      unfold localMsOfDay at hlt
      have h6 : (0 : ℚ) ≤ ((6 * msPerHour : ℤ) : ℚ) := by norm_num [msPerHour]
      push_cast at h6 ⊢
      linarith
    linarith
  · rw [moonMorning_eq, moonMorning_eq]
    have hdm := localDay_mono off (fullMoon_mono off h)
    have hD : (0 : ℤ) ≤ msPerDay := by norm_num [msPerDay]
    have hint : (localDay off (fullMoonInstant off now₁) + 1) * msPerDay + 6 * msPerHour
        ≤ (localDay off (fullMoonInstant off now₂) + 1) * msPerDay + 6 * msPerHour := by
      have := mul_le_mul_of_nonneg_right (show localDay off (fullMoonInstant off now₁) + 1
          ≤ localDay off (fullMoonInstant off now₂) + 1 by omega) hD
      omega
    have hcast : (((localDay off (fullMoonInstant off now₁) + 1) * msPerDay + 6 * msPerHour : ℤ) : ℚ)
        ≤ (((localDay off (fullMoonInstant off now₂) + 1) * msPerDay + 6 * msPerHour : ℤ) : ℚ) := by
      exact_mod_cast hint
    linarith

/-- Witness for C5 at the concrete instant `now = 0` (with `now₁ = now₂`,
discharging the hypothesis `now₁ ≤ now₂`). -/
theorem full_moon_boundary_rule_witness :
    sundayMidnight 0 0 < getNextFullMoonMorning 0 0 ∧
    getNextFullMoonMorning 0 0 ≤ getNextFullMoonMorning 0 0 :=
  full_moon_boundary_rule 0 0 0 (le_refl 0)

/-- C2 (amended): the source filterEvents reads the wall clock internally
(`new Date()` inside getMaxEventTime); modelling that hidden reading as
the explicit argument `now`, the result is fully determined by
`(events, settings, referenceLocation, bookmarks, now)` and depends on
`now` only through the computed time boundary: whenever the boundary
agrees, the outputs are identical. -/
theorem filter_deterministic_given_boundary (dist : DistFn) (isBm : Option String → Bool)
    (off : ℤ) (events : List Event) (filters : Filters) (ref : Option Loc) (now₁ now₂ : ℚ)
    (h : getMaxEventTime off filters.timeFilter now₁ = getMaxEventTime off filters.timeFilter now₂) :
    filterEvents dist isBm off events filters ref now₁
      = filterEvents dist isBm off events filters ref now₂ := by
  unfold filterEvents
  rw [h]

/-- Witness for C2 at concrete inputs (equal boundary readings). -/
theorem filter_deterministic_given_boundary_witness :
    filterEvents dist0 noBookmarks 0 [evA] ⟨"6h", 10, "all"⟩ none 0
      = filterEvents dist0 noBookmarks 0 [evA] ⟨"6h", 10, "all"⟩ none 0 :=
  filter_deterministic_given_boundary dist0 noBookmarks 0 [evA] ⟨"6h", 10, "all"⟩ none 0 0 rfl

/-- Counterexample for C2 as stated: with every argument of the source
signature held fixed (events, settings, reference location, bookmarks),
two different internal clock readings produce different results, so the
filtering does read a hidden clock. -/
theorem filter_reads_clock_counterexample :
    filterEvents dist0 noBookmarks 0 [evA] ⟨"6h", 10, "all"⟩ none 0
      ≠ filterEvents dist0 noBookmarks 0 [evA] ⟨"6h", 10, "all"⟩ none 7200000 := by
  simp only [filterEvents, filterStep, getMaxEventTime, evA, dist0, noBookmarks,
    String.reduceEq, reduceIte, List.filterMap_cons, List.filterMap_nil]
  norm_num [msPerHour]

theorem filterStep_post_frame (dist : DistFn) (isBm : Option String → Bool)
    (met maxD : ℚ) (cat : String) (ref : Option Loc) (e : Event) :
    { (filterStep dist isBm met maxD cat ref e).1 with distance := e.distance } = e := by
  obtain ⟨i, ti, c, st, loc, d0⟩ := e
  unfold filterStep
  rcases ref with _ | r <;> rcases loc with _ | l <;> dsimp only <;> split_ifs <;> rfl

/-- C3 (amended): filterEvents does not build fresh records; it writes the
computed `distance` onto the caller's original event objects and returns
those same (possibly mutated) objects.  Every returned record is the
post-call state of some input record, every input record is changed in at
most its `distance` field, and nothing else is altered. -/
theorem filter_returns_mutated_originals (dist : DistFn) (isBm : Option String → Bool)
    (off : ℤ) (events : List Event) (filters : Filters) (ref : Option Loc) (now : ℚ) :
    (∀ e' ∈ filterEvents dist isBm off events filters ref now,
      ∃ e ∈ events,
        e' = (filterStep dist isBm (getMaxEventTime off filters.timeFilter now)
                filters.maxDistance filters.category ref e).1 ∧
        { e' with distance := e.distance } = e) ∧
    (∀ e ∈ events,
      { (filterStep dist isBm (getMaxEventTime off filters.timeFilter now)
          filters.maxDistance filters.category ref e).1 with distance := e.distance } = e) := by
  constructor
  · intro e' h
    unfold filterEvents at h
    rw [List.mem_filterMap] at h
    obtain ⟨e, he, hf⟩ := h
    by_cases hk : (filterStep dist isBm (getMaxEventTime off filters.timeFilter now)
        filters.maxDistance filters.category ref e).2 = true
    · rw [if_pos hk] at hf
      obtain rfl : (filterStep dist isBm (getMaxEventTime off filters.timeFilter now)
          filters.maxDistance filters.category ref e).1 = e' := by
        exact Option.some.inj hf
      exact ⟨e, he, rfl, filterStep_post_frame _ _ _ _ _ _ _⟩
    · rw [if_neg hk] at hf
      exact absurd hf (Option.noConfusion)
  · intro e _
    exact filterStep_post_frame _ _ _ _ _ _ _

/-- Witness for C3 (amended) at a concrete input: the single returned
event is the input record with distance 5 written onto it. -/
theorem filter_returns_mutated_originals_witness :
    (∃ e ∈ [evLoc],
      ({ evLoc with distance := some 5 } : Event)
          = (filterStep dist5 noBookmarks (getMaxEventTime 0 "6h" 0) 10 "all" (some ⟨1, 1⟩) e).1 ∧
      { ({ evLoc with distance := some 5 } : Event) with distance := e.distance } = e) ∧
    { (filterStep dist5 noBookmarks (getMaxEventTime 0 "6h" 0) 10 "all"
        (some ⟨1, 1⟩) evLoc).1 with distance := evLoc.distance } = evLoc := by
  have hmem : ({ evLoc with distance := some 5 } : Event)
      ∈ filterEvents dist5 noBookmarks 0 [evLoc] ⟨"6h", 10, "all"⟩ (some ⟨1, 1⟩) 0 := by
    simp only [filterEvents, filterStep, getMaxEventTime, evLoc, dist5, noBookmarks,
      String.reduceEq, reduceIte, List.filterMap_cons, List.filterMap_nil]
    norm_num [msPerHour]
  exact ⟨(filter_returns_mutated_originals dist5 noBookmarks 0 [evLoc]
      ⟨"6h", 10, "all"⟩ (some ⟨1, 1⟩) 0).1 _ hmem,
    (filter_returns_mutated_originals dist5 noBookmarks 0 [evLoc]
      ⟨"6h", 10, "all"⟩ (some ⟨1, 1⟩) 0).2 evLoc (by simp)⟩

/-- Counterexample for C3 as stated: after one filter pass the caller's
array no longer equals the original (a `distance` field has been written
onto the original event), so the filter does mutate its inputs. -/
theorem filter_mutates_inputs_counterexample :
    filterEventsPost dist5 noBookmarks 0 [evLoc] ⟨"6h", 10, "all"⟩ (some ⟨1, 1⟩) 0 ≠ [evLoc] := by
  simp only [filterEventsPost, filterStep, getMaxEventTime, evLoc, dist5, noBookmarks,
    String.reduceEq, reduceIte, List.map_cons, List.map_nil]
  norm_num [msPerHour]
  exact fun h => Option.noConfusion h

theorem bump_sum (m : List (String × ℕ)) (k : String) :
    ((bump m k).map Prod.snd).sum = (m.map Prod.snd).sum + 1 := by
  induction m with
  | nil => simp [bump]
  | cons p rest ih =>
    obtain ⟨k', n⟩ := p
    unfold bump
    by_cases h : k' = k
    · simp only [if_pos h, List.map_cons, List.sum_cons]
      omega
    · simp only [if_neg h, List.map_cons, List.sum_cons, ih]
      omega

theorem countCats_fold_sum (dist : DistFn) (isBm : Option String → Bool)
    (met maxD : ℚ) (ref : Option Loc) (events : List Event) :
    ∀ m : List (String × ℕ),
      (((events.foldl (fun m e =>
          if countKeep dist isBm met maxD ref e then bump m (catOf e) else m) m)).map Prod.snd).sum
        = (m.map Prod.snd).sum
          + events.countP (fun e => countKeep dist isBm met maxD ref e) := by
  induction events with
  | nil => intro m; simp
  | cons e rest ih =>
    intro m
    simp only [List.foldl_cons, List.countP_cons]
    by_cases h : countKeep dist isBm met maxD ref e
    · rw [if_pos h, ih, bump_sum]
      simp [h]
      omega
    · rw [if_neg h, ih]
      simp [h]

theorem filterEvents_length (dist : DistFn) (isBm : Option String → Bool) (off : ℤ)
    (events : List Event) (filters : Filters) (ref : Option Loc) (now : ℚ) :
    (filterEvents dist isBm off events filters ref now).length
      = events.countP (fun e => (filterStep dist isBm (getMaxEventTime off filters.timeFilter now)
          filters.maxDistance filters.category ref e).2) := by
  unfold filterEvents
  induction events with
  | nil => simp
  | cons e rest ih =>
    simp only [List.filterMap_cons, List.countP_cons]
    by_cases h : (filterStep dist isBm (getMaxEventTime off filters.timeFilter now)
        filters.maxDistance filters.category ref e).2 = true
    · rw [if_pos h]
      simp only [List.length_cons, ih, h]
      simp
    · rw [if_neg h]
      simp only [ih]
      simp [h]

theorem filterStep_keep_all (dist : DistFn) (isBm : Option String → Bool)
    (met maxD : ℚ) (ref : Option Loc) (e : Event) :
    (filterStep dist isBm met maxD "all" ref e).2 = countKeep dist isBm met maxD ref e := by
  obtain ⟨i, ti, c, st, loc, d0⟩ := e
  unfold filterStep countKeep
  rcases ref with _ | r <;> rcases loc with _ | l <;> dsimp only <;> split_ifs <;> simp_all

/-- C6: when the category setting is "all", the values of
countCategoriesUnderFilters sum to exactly the length of the filterEvents
output on the same inputs: both sides apply the identical temporal and
spatial gating with bookmarked events always counted. -/
theorem count_by_category_total (dist : DistFn) (isBm : Option String → Bool) (off : ℤ)
    (events : List Event) (filters : Filters) (ref : Option Loc) (now : ℚ)
    (h : filters.category = "all") :
    ((countCategoriesUnderFilters dist isBm off events filters ref now).map Prod.snd).sum
      = (filterEvents dist isBm off events filters ref now).length := by
  rw [filterEvents_length]
  unfold countCategoriesUnderFilters
  rw [countCats_fold_sum]
  simp only [List.map_nil, List.sum_nil, Nat.zero_add, zero_add]
  apply List.countP_congr
  intro e _
  rw [h, filterStep_keep_all]

/-- Witness for C6 at a concrete input with category setting "all". -/
theorem count_by_category_total_witness :
    ((countCategoriesUnderFilters dist0 noBookmarks 0 [evA] ⟨"6h", 10, "all"⟩ none 0).map Prod.snd).sum
      = (filterEvents dist0 noBookmarks 0 [evA] ⟨"6h", 10, "all"⟩ none 0).length :=
  count_by_category_total dist0 noBookmarks 0 [evA] ⟨"6h", 10, "all"⟩ none 0 rfl

theorem insertItem_dups_key (gs : List BubbleGroup) (it : BubbleItem)
    (h : ∀ g ∈ gs, ∀ e ∈ g.duplicates, eventKey e = eventKey g.item.event) :
    ∀ g ∈ insertItem gs it, ∀ e ∈ g.duplicates, eventKey e = eventKey g.item.event := by
  induction gs with
  | nil =>
    intro g hg e he
    simp only [insertItem, List.mem_singleton] at hg
    subst hg
    simp only [List.mem_singleton] at he
    subst he
    rfl
  | cons g0 rest ih =>
    intro g hg e he
    unfold insertItem at hg
    by_cases hk : eventKey g0.item.event = eventKey it.event
    · rw [if_pos hk] at hg
      rcases List.mem_cons.1 hg with hgh | hgt
      · subst hgh
        simp only [List.mem_append, List.mem_singleton] at he
        rcases he with he | he
        · exact h g0 (List.mem_cons_self _ _) e he
        · subst he
          exact hk.symm
      · exact h g (List.mem_cons_of_mem _ hgt) e he
    · rw [if_neg hk] at hg
      rcases List.mem_cons.1 hg with hgh | hgt
      · subst hgh
        exact h g (List.mem_cons_self _ _) e he
      · exact ih (fun g' hg' => h g' (List.mem_cons_of_mem _ hg')) g hgt e he

theorem insertItem_struct (gs : List BubbleGroup) (it : BubbleItem)
    (h : ∀ g ∈ gs, g.duplicates.head? = some g.item.event
        ∧ g.duplicateCount = g.duplicates.length) :
    ∀ g ∈ insertItem gs it, g.duplicates.head? = some g.item.event
        ∧ g.duplicateCount = g.duplicates.length := by
  induction gs with
  | nil =>
    intro g hg
    simp only [insertItem, List.mem_singleton] at hg
    subst hg
    exact ⟨rfl, rfl⟩
  | cons g0 rest ih =>
    intro g hg
    unfold insertItem at hg
    by_cases hk : eventKey g0.item.event = eventKey it.event
    · rw [if_pos hk] at hg
      rcases List.mem_cons.1 hg with hgh | hgt
      · subst hgh
        obtain ⟨h1, h2⟩ := h g0 (List.mem_cons_self _ _)
        refine ⟨?_, ?_⟩
        · show (g0.duplicates ++ [it.event]).head? = some g0.item.event
          cases hd : g0.duplicates with
          | nil => rw [hd] at h1; exact absurd h1 (by simp)
          | cons a l =>
            rw [hd] at h1
            simpa using h1
        · show g0.duplicateCount + 1 = (g0.duplicates ++ [it.event]).length
          simp only [List.length_append, List.length_singleton]
          omega
      · exact h g (List.mem_cons_of_mem _ hgt)
    · rw [if_neg hk] at hg
      rcases List.mem_cons.1 hg with hgh | hgt
      · subst hgh
        exact h g (List.mem_cons_self _ _)
      · exact ih (fun g' hg' => h g' (List.mem_cons_of_mem _ hg')) g hgt

theorem insertItem_item (gs : List BubbleGroup) (it : BubbleItem) :
    ∀ g ∈ insertItem gs it, g.item = it ∨ ∃ g' ∈ gs, g.item = g'.item := by
  induction gs with
  | nil =>
    intro g hg
    simp only [insertItem, List.mem_singleton] at hg
    subst hg
    exact Or.inl rfl
  | cons g0 rest ih =>
    intro g hg
    unfold insertItem at hg
    by_cases hk : eventKey g0.item.event = eventKey it.event
    · rw [if_pos hk] at hg
      rcases List.mem_cons.1 hg with hgh | hgt
      · subst hgh
        exact Or.inr ⟨g0, List.mem_cons_self _ _, rfl⟩
      · exact Or.inr ⟨g, List.mem_cons_of_mem _ hgt, rfl⟩
    · rw [if_neg hk] at hg
      rcases List.mem_cons.1 hg with hgh | hgt
      · subst hgh
        exact Or.inr ⟨g, List.mem_cons_self _ _, rfl⟩
      · rcases ih g hgt with h1 | ⟨g', hg', h2⟩
        · exact Or.inl h1
        · exact Or.inr ⟨g', List.mem_cons_of_mem _ hg', h2⟩

theorem insertItem_pairwise (gs : List BubbleGroup) (it : BubbleItem)
    (hp : gs.Pairwise (fun g₁ g₂ => eventKey g₁.item.event ≠ eventKey g₂.item.event)) :
    (insertItem gs it).Pairwise (fun g₁ g₂ => eventKey g₁.item.event ≠ eventKey g₂.item.event) := by
  induction gs with
  | nil => simp [insertItem]
  | cons g0 rest ih =>
    rw [List.pairwise_cons] at hp
    obtain ⟨h0, hrest⟩ := hp
    unfold insertItem
    by_cases hk : eventKey g0.item.event = eventKey it.event
    · rw [if_pos hk]
      rw [List.pairwise_cons]
      exact ⟨h0, hrest⟩
    · rw [if_neg hk]
      rw [List.pairwise_cons]
      refine ⟨?_, ih hrest⟩
      intro g hg
      rcases insertItem_item rest it g hg with h1 | ⟨g', hg', h2⟩
      · rw [h1]; exact hk
      · rw [h2]; exact h0 g' hg'

theorem insertItem_covers (gs : List BubbleGroup) (it : BubbleItem) :
    ∃ g ∈ insertItem gs it, it.event ∈ g.duplicates := by
  induction gs with
  | nil => exact ⟨⟨it, 1, [it.event]⟩, List.mem_singleton.2 rfl, List.mem_singleton.2 rfl⟩
  | cons g0 rest ih =>
    unfold insertItem
    by_cases hk : eventKey g0.item.event = eventKey it.event
    · rw [if_pos hk]
      exact ⟨_, List.mem_cons_self _ _, List.mem_append.2 (Or.inr (List.mem_singleton.2 rfl))⟩
    · rw [if_neg hk]
      obtain ⟨g, hg, he⟩ := ih
      exact ⟨g, List.mem_cons_of_mem _ hg, he⟩

theorem insertItem_mono_dups (gs : List BubbleGroup) (it : BubbleItem) (g : BubbleGroup)
    (hg : g ∈ gs) (e : Event) (he : e ∈ g.duplicates) :
    ∃ g' ∈ insertItem gs it, e ∈ g'.duplicates := by
  induction gs with
  | nil => exact absurd hg (List.not_mem_nil g)
  | cons g0 rest ih =>
    unfold insertItem
    by_cases hk : eventKey g0.item.event = eventKey it.event
    · rw [if_pos hk]
      rcases List.mem_cons.1 hg with hgh | hgt
      · subst hgh
        exact ⟨_, List.mem_cons_self _ _, List.mem_append.2 (Or.inl he)⟩
      · exact ⟨g, List.mem_cons_of_mem _ hgt, he⟩
    · rw [if_neg hk]
      rcases List.mem_cons.1 hg with hgh | hgt
      · subst hgh
        exact ⟨g, List.mem_cons_self _ _, he⟩
      · obtain ⟨g', hg', he'⟩ := ih hgt
        exact ⟨g', List.mem_cons_of_mem _ hg', he'⟩

theorem insertItem_dups_from (gs : List BubbleGroup) (it : BubbleItem) :
    ∀ g ∈ insertItem gs it, ∀ e ∈ g.duplicates,
      (∃ g' ∈ gs, e ∈ g'.duplicates) ∨ e = it.event := by
  induction gs with
  | nil =>
    intro g hg e he
    simp only [insertItem, List.mem_singleton] at hg
    subst hg
    simp only [List.mem_singleton] at he
    exact Or.inr he
  | cons g0 rest ih =>
    intro g hg e he
    unfold insertItem at hg
    by_cases hk : eventKey g0.item.event = eventKey it.event
    · rw [if_pos hk] at hg
      rcases List.mem_cons.1 hg with hgh | hgt
      · subst hgh
        simp only [List.mem_append, List.mem_singleton] at he
        rcases he with he | he
        · exact Or.inl ⟨g0, List.mem_cons_self _ _, he⟩
        · exact Or.inr he
      · exact Or.inl ⟨g, List.mem_cons_of_mem _ hgt, he⟩
    · rw [if_neg hk] at hg
      rcases List.mem_cons.1 hg with hgh | hgt
      · subst hgh
        exact Or.inl ⟨g, List.mem_cons_self _ _, he⟩
      · rcases ih g hgt e he with ⟨g', hg', he'⟩ | h1
        · exact Or.inl ⟨g', List.mem_cons_of_mem _ hg', he'⟩
        · exact Or.inr h1

theorem insertItem_sum (gs : List BubbleGroup) (it : BubbleItem) :
    ((insertItem gs it).map (fun g => g.duplicateCount)).sum
      = (gs.map (fun g => g.duplicateCount)).sum + 1 := by
  induction gs with
  | nil => simp [insertItem]
  | cons g0 rest ih =>
    unfold insertItem
    by_cases hk : eventKey g0.item.event = eventKey it.event
    · rw [if_pos hk]
      simp only [List.map_cons, List.sum_cons]
      omega
    · rw [if_neg hk]
      simp only [List.map_cons, List.sum_cons, ih]
      omega

theorem dedupe_fold_key (items : List BubbleItem) :
    ∀ gs, (∀ g ∈ gs, ∀ e ∈ g.duplicates, eventKey e = eventKey g.item.event) →
      ∀ g ∈ items.foldl insertItem gs, ∀ e ∈ g.duplicates, eventKey e = eventKey g.item.event := by
  induction items with
  | nil => intro gs h; simpa using h
  | cons i is ih =>
    intro gs h
    simp only [List.foldl_cons]
    exact ih _ (insertItem_dups_key gs i h)

theorem dedupe_fold_struct (items : List BubbleItem) :
    ∀ gs, (∀ g ∈ gs, g.duplicates.head? = some g.item.event
        ∧ g.duplicateCount = g.duplicates.length) →
      ∀ g ∈ items.foldl insertItem gs, g.duplicates.head? = some g.item.event
        ∧ g.duplicateCount = g.duplicates.length := by
  induction items with
  | nil => intro gs h; simpa using h
  | cons i is ih =>
    intro gs h
    simp only [List.foldl_cons]
    exact ih _ (insertItem_struct gs i h)

theorem dedupe_fold_pairwise (items : List BubbleItem) :
    ∀ gs, gs.Pairwise (fun g₁ g₂ => eventKey g₁.item.event ≠ eventKey g₂.item.event) →
      (items.foldl insertItem gs).Pairwise
        (fun g₁ g₂ => eventKey g₁.item.event ≠ eventKey g₂.item.event) := by
  induction items with
  | nil => intro gs h; simpa using h
  | cons i is ih =>
    intro gs h
    simp only [List.foldl_cons]
    exact ih _ (insertItem_pairwise gs i h)

theorem dedupe_fold_item (items : List BubbleItem) :
    ∀ gs, ∀ g ∈ items.foldl insertItem gs,
      (∃ g' ∈ gs, g.item = g'.item) ∨ g.item ∈ items := by
  induction items with
  | nil =>
    intro gs g hg
    exact Or.inl ⟨g, hg, rfl⟩
  | cons i is ih =>
    intro gs g hg
    simp only [List.foldl_cons] at hg
    rcases ih (insertItem gs i) g hg with ⟨g', hg', heq⟩ | hmem
    · rcases insertItem_item gs i g' hg' with h1 | ⟨g'', hg'', h2⟩
      · exact Or.inr (heq ▸ h1 ▸ List.mem_cons_self _ _)
      · exact Or.inl ⟨g'', hg'', heq.trans h2⟩
    · exact Or.inr (List.mem_cons_of_mem _ hmem)

theorem dedupe_fold_mono_dups (items : List BubbleItem) :
    ∀ gs g, g ∈ gs → ∀ e ∈ g.duplicates,
      ∃ g' ∈ items.foldl insertItem gs, e ∈ g'.duplicates := by
  induction items with
  | nil => intro gs g hg e he; exact ⟨g, hg, he⟩
  | cons i is ih =>
    intro gs g hg e he
    simp only [List.foldl_cons]
    obtain ⟨g1, hg1, he1⟩ := insertItem_mono_dups gs i g hg e he
    exact ih _ g1 hg1 e he1

theorem dedupe_fold_covers (items : List BubbleItem) :
    ∀ gs, ∀ it ∈ items, ∃ g ∈ items.foldl insertItem gs, it.event ∈ g.duplicates := by
  induction items with
  | nil => intro gs it hit; exact absurd hit (List.not_mem_nil it)
  | cons i is ih =>
    intro gs it hit
    simp only [List.foldl_cons]
    rcases List.mem_cons.1 hit with h1 | h2
    · subst h1
      obtain ⟨g1, hg1, he1⟩ := insertItem_covers gs it
      exact dedupe_fold_mono_dups is _ g1 hg1 _ he1
    · exact ih _ it h2

theorem dedupe_fold_dups_from (items : List BubbleItem) :
    ∀ gs, ∀ g ∈ items.foldl insertItem gs, ∀ e ∈ g.duplicates,
      (∃ g' ∈ gs, e ∈ g'.duplicates) ∨ ∃ it ∈ items, e = it.event := by
  induction items with
  | nil => intro gs g hg e he; exact Or.inl ⟨g, hg, he⟩
  | cons i is ih =>
    intro gs g hg e he
    simp only [List.foldl_cons] at hg
    rcases ih _ g hg e he with ⟨g', hg', he'⟩ | ⟨it, hit, heq⟩
    · rcases insertItem_dups_from gs i g' hg' e he' with ⟨g'', hg'', he''⟩ | h1
      · exact Or.inl ⟨g'', hg'', he''⟩
      · exact Or.inr ⟨i, List.mem_cons_self _ _, h1⟩
    · exact Or.inr ⟨it, List.mem_cons_of_mem _ hit, heq⟩

theorem dedupe_fold_sum (items : List BubbleItem) :
    ∀ gs, ((items.foldl insertItem gs).map (fun g => g.duplicateCount)).sum
      = (gs.map (fun g => g.duplicateCount)).sum + items.length := by
  induction items with
  | nil => intro gs; simp
  | cons i is ih =>
    intro gs
    simp only [List.foldl_cons, List.length_cons, ih, insertItem_sum]
    omega

theorem mkItems_event_mem {l : List Event} (it : BubbleItem) (h : it ∈ mkItems l) :
    it.event ∈ l := by
  unfold mkItems at h
  rw [List.mem_map] at h
  obtain ⟨p, hp, rfl⟩ := h
  have hmem : p.2 ∈ l.enum.map Prod.snd := List.mem_map_of_mem _ hp
  rwa [List.enum_map_snd] at hmem

theorem insertItem_item_first (gs : List BubbleGroup) (it : BubbleItem) :
    ∀ g ∈ insertItem gs it,
      (∃ g' ∈ gs, g.item = g'.item) ∨
      (g.item = it ∧ ∀ g' ∈ gs, eventKey g'.item.event ≠ eventKey it.event) := by
  induction gs with
  | nil =>
    intro g hg
    simp only [insertItem, List.mem_singleton] at hg
    subst hg
    exact Or.inr ⟨rfl, by simp⟩
  | cons g0 rest ih =>
    intro g hg
    unfold insertItem at hg
    by_cases hk : eventKey g0.item.event = eventKey it.event
    · rw [if_pos hk] at hg
      rcases List.mem_cons.1 hg with hgh | hgt
      · subst hgh
        exact Or.inl ⟨g0, List.mem_cons_self _ _, rfl⟩
      · exact Or.inl ⟨g, List.mem_cons_of_mem _ hgt, rfl⟩
    · rw [if_neg hk] at hg
      rcases List.mem_cons.1 hg with hgh | hgt
      · subst hgh
        exact Or.inl ⟨g, List.mem_cons_self _ _, rfl⟩
      · rcases ih g hgt with ⟨g', hg', he⟩ | ⟨h2, h3⟩
        · exact Or.inl ⟨g', List.mem_cons_of_mem _ hg', he⟩
        · refine Or.inr ⟨h2, ?_⟩
          intro g' hg'
          rcases List.mem_cons.1 hg' with h4 | h5
          · subst h4
            exact hk
          · exact h3 g' h5

theorem insertItem_items_preserved (gs : List BubbleGroup) (it : BubbleItem) :
    ∀ g' ∈ gs, ∃ g ∈ insertItem gs it, g.item = g'.item := by
  induction gs with
  | nil => intro g' hg'; exact absurd hg' (List.not_mem_nil g')
  | cons g0 rest ih =>
    intro g' hg'
    unfold insertItem
    by_cases hk : eventKey g0.item.event = eventKey it.event
    · rw [if_pos hk]
      rcases List.mem_cons.1 hg' with h1 | h2
      · subst h1
        exact ⟨_, List.mem_cons_self _ _, rfl⟩
      · exact ⟨g', List.mem_cons_of_mem _ h2, rfl⟩
    · rw [if_neg hk]
      rcases List.mem_cons.1 hg' with h1 | h2
      · subst h1
        exact ⟨_, List.mem_cons_self _ _, rfl⟩
      · obtain ⟨g, hgm, he⟩ := ih g' h2
        exact ⟨g, List.mem_cons_of_mem _ hgm, he⟩

theorem insertItem_key_present (gs : List BubbleGroup) (it : BubbleItem) :
    ∃ g ∈ insertItem gs it, eventKey g.item.event = eventKey it.event := by
  induction gs with
  | nil => exact ⟨⟨it, 1, [it.event]⟩, List.mem_singleton.2 rfl, rfl⟩
  | cons g0 rest ih =>
    unfold insertItem
    by_cases hk : eventKey g0.item.event = eventKey it.event
    · rw [if_pos hk]
      exact ⟨_, List.mem_cons_self _ _, hk⟩
    · rw [if_neg hk]
      obtain ⟨g, hgm, he⟩ := ih
      exact ⟨g, List.mem_cons_of_mem _ hgm, he⟩

theorem insertItem_first_seen (gs : List BubbleGroup) (i : BubbleItem)
    (processed : List BubbleItem)
    (hfind : ∀ g ∈ gs, keyFind processed (eventKey g.item.event) = some g.item)
    (hcover : ∀ it ∈ processed, ∃ g ∈ gs, eventKey it.event = eventKey g.item.event) :
    (∀ g ∈ insertItem gs i, keyFind (processed ++ [i]) (eventKey g.item.event) = some g.item) ∧
    (∀ it ∈ processed ++ [i], ∃ g ∈ insertItem gs i,
      eventKey it.event = eventKey g.item.event) := by
  constructor
  · intro g hg
    rcases insertItem_item_first gs i g hg with ⟨g', hg', heq⟩ | ⟨heq, hnone⟩
    · unfold keyFind at hfind ⊢
      rw [heq, List.find?_append, hfind g' hg']
      rfl
    · unfold keyFind
      have hnoneproc : processed.find?
          (fun it => eventKey it.event = eventKey g.item.event) = none := by
        rw [List.find?_eq_none]
        intro it' hit' hp
        simp only [decide_eq_true_eq] at hp
        obtain ⟨g', hg', hk⟩ := hcover it' hit'
        apply hnone g' hg'
        rw [← hk, hp, heq]
      have hsingle : ([i] : List BubbleItem).find?
          (fun it => eventKey it.event = eventKey g.item.event) = some i :=
        List.find?_cons_of_pos _ (by simp [heq])
      calc (processed ++ [i]).find? (fun it => eventKey it.event = eventKey g.item.event)
          = (processed.find? (fun it => eventKey it.event = eventKey g.item.event)).or
            (([i] : List BubbleItem).find?
              (fun it => eventKey it.event = eventKey g.item.event)) := List.find?_append
        _ = some i := by rw [hnoneproc, hsingle]; rfl
        _ = some g.item := by rw [heq]
  · intro it hit
    rcases List.mem_append.1 hit with h1 | h2
    · obtain ⟨g', hg', hk⟩ := hcover it h1
      obtain ⟨g, hgm, he⟩ := insertItem_items_preserved gs i g' hg'
      exact ⟨g, hgm, by rw [hk, he]⟩
    · rw [List.mem_singleton] at h2
      subst h2
      obtain ⟨g, hgm, he⟩ := insertItem_key_present gs it
      exact ⟨g, hgm, he.symm⟩

theorem dedupe_fold_first_seen (items : List BubbleItem) :
    ∀ gs processed,
      (∀ g ∈ gs, keyFind processed (eventKey g.item.event) = some g.item) →
      (∀ it ∈ processed, ∃ g ∈ gs, eventKey it.event = eventKey g.item.event) →
      ∀ g ∈ items.foldl insertItem gs,
        keyFind (processed ++ items) (eventKey g.item.event) = some g.item := by
  induction items with
  | nil =>
    intro gs processed hfind _ g hg
    simpa using hfind g hg
  | cons i is ih =>
    intro gs processed hfind hcover g hg
    simp only [List.foldl_cons] at hg
    obtain ⟨h1, h2⟩ := insertItem_first_seen gs i processed hfind hcover
    have hres := ih (insertItem gs i) (processed ++ [i]) h1 h2 g hg
    rwa [List.append_assoc, List.singleton_append] at hres

/-- C1 (amended): deduplicateEvents (app-refactored.js) groups by the
composite of case-folded whitespace-trimmed title and exact start time
only; the identifier and the location coordinates play no role.  Every
group is key-homogeneous, group counts equal member counts, distinct
groups carry distinct keys, every input item lands in some group, and
the representative is first-seen: searching the input for the group's
key finds exactly the group's item, whose event heads the member list. -/
theorem dedupe_groups_by_title_start (items : List BubbleItem) :
    (∀ g ∈ deduplicateEvents items, ∀ e ∈ g.duplicates, eventKey e = eventKey g.item.event) ∧
    (∀ g ∈ deduplicateEvents items,
      g.duplicates.head? = some g.item.event ∧ g.duplicateCount = g.duplicates.length) ∧
    (deduplicateEvents items).Pairwise
      (fun g₁ g₂ => eventKey g₁.item.event ≠ eventKey g₂.item.event) ∧
    (∀ g ∈ deduplicateEvents items, g.item ∈ items) ∧
    (∀ g ∈ deduplicateEvents items,
      keyFind items (eventKey g.item.event) = some g.item) ∧
    (∀ it ∈ items, ∃ g ∈ deduplicateEvents items, it.event ∈ g.duplicates) := by
  refine ⟨dedupe_fold_key items [] (by simp), dedupe_fold_struct items [] (by simp),
    dedupe_fold_pairwise items [] (by simp), ?_, ?_, dedupe_fold_covers items []⟩
  · intro g hg
    rcases dedupe_fold_item items [] g hg with ⟨g', hg', _⟩ | hmem
    · exact absurd hg' (List.not_mem_nil g')
    · exact hmem
  · intro g hg
    have hres := dedupe_fold_first_seen items [] [] (by simp) (by simp) g hg
    simpa using hres

/-- Witness for C1 (amended) on the singleton item list built from
`evDup1`. -/
theorem dedupe_groups_by_title_start_witness :
    eventKey evDup1 = eventKey ((⟨⟨0, evDup1⟩, 1, [evDup1]⟩ : BubbleGroup)).item.event ∧
    ((⟨⟨0, evDup1⟩, 1, [evDup1]⟩ : BubbleGroup)).duplicates.head? = some evDup1 ∧
    (⟨⟨0, evDup1⟩, 1, [evDup1]⟩ : BubbleGroup).item ∈ ([⟨0, evDup1⟩] : List BubbleItem) ∧
    keyFind [⟨0, evDup1⟩]
      (eventKey (⟨⟨0, evDup1⟩, 1, [evDup1]⟩ : BubbleGroup).item.event)
        = some ⟨0, evDup1⟩ ∧
    ∃ g ∈ deduplicateEvents [⟨0, evDup1⟩], (⟨0, evDup1⟩ : BubbleItem).event ∈ g.duplicates := by
  have hg : (⟨⟨0, evDup1⟩, 1, [evDup1]⟩ : BubbleGroup)
      ∈ deduplicateEvents [⟨0, evDup1⟩] := by
    show _ ∈ ([⟨⟨0, evDup1⟩, 1, [evDup1]⟩] : List BubbleGroup)
    exact List.mem_singleton.2 rfl
  refine ⟨(dedupe_groups_by_title_start [⟨0, evDup1⟩]).1 _ hg evDup1 (by simp), ?_, ?_, ?_, ?_⟩
  · exact ((dedupe_groups_by_title_start [⟨0, evDup1⟩]).2.1 _ hg).1
  · exact (dedupe_groups_by_title_start [⟨0, evDup1⟩]).2.2.2.1 _ hg
  · exact (dedupe_groups_by_title_start [⟨0, evDup1⟩]).2.2.2.2.1 _ hg
  · exact (dedupe_groups_by_title_start [⟨0, evDup1⟩]).2.2.2.2.2 _ (List.mem_singleton.2 rfl)

/-- Counterexample for C1 as stated: `evDup1` and `evDup2` carry distinct
identifiers (and distinct coordinates), so under the claimed identity key
they belong to different groups, yet deduplicateEvents merges them into a
single group because its key uses only title and start time. -/
theorem dedupe_ignores_identifier_counterexample :
    claimIdentityKey evDup1 ≠ claimIdentityKey evDup2 ∧
    (deduplicateEvents [⟨0, evDup1⟩, ⟨1, evDup2⟩]).length = 1 := by
  constructor
  · simp [claimIdentityKey, evDup1, evDup2]
  · simp [deduplicateEvents, insertItem, eventKey, evDup1, evDup2]

/-- C9: showAllSpeechBubbles truncates to the first `maxBubbles = 30`
events before deduplicating, so the groups cover only the first
`min(n, 30)` events: the duplicate counts sum to `min(n, 30)` and every
group member comes from `events.take 30` (events at index 30 and beyond
appear in no group). -/
theorem bubble_dedupe_truncated (events : List Event) :
    ((showAllSpeechBubblesGroups events).map (fun g => g.duplicateCount)).sum
      = min events.length 30 ∧
    ∀ g ∈ showAllSpeechBubblesGroups events, ∀ e ∈ g.duplicates, e ∈ events.take 30 := by
  constructor
  · unfold showAllSpeechBubblesGroups deduplicateEvents
    rw [dedupe_fold_sum]
    have hlen : (mkItems (events.take 30)).length = (events.take 30).length := by
      unfold mkItems
      rw [List.length_map, List.enum_length]
    rw [hlen, List.length_take]
    simp [min_comm]
  · intro g hg e he
    unfold showAllSpeechBubblesGroups deduplicateEvents at hg
    rcases dedupe_fold_dups_from (mkItems (events.take 30)) [] g hg e he with
      ⟨g', hg', _⟩ | ⟨it, hit, heq⟩
    · exact absurd hg' (List.not_mem_nil g')
    · exact heq ▸ mkItems_event_mem it hit

/-- Witness for C9 on a one-event list. -/
theorem bubble_dedupe_truncated_witness :
    (((showAllSpeechBubblesGroups [evDup1]).map (fun g => g.duplicateCount)).sum
      = min ([evDup1] : List Event).length 30) ∧
    evDup1 ∈ ([evDup1] : List Event).take 30 := by
  refine ⟨(bubble_dedupe_truncated [evDup1]).1, ?_⟩
  have hg : (⟨⟨0, evDup1⟩, 1, [evDup1]⟩ : BubbleGroup) ∈ showAllSpeechBubblesGroups [evDup1] := by
    show _ ∈ ([⟨⟨0, evDup1⟩, 1, [evDup1]⟩] : List BubbleGroup)
    exact List.mem_singleton.2 rfl
  exact (bubble_dedupe_truncated [evDup1]).2 _ hg evDup1 (by simp)

/-- C7 (amended): an unknown relative-time-spec type does not fall back
to the offset rule; the event passes through with its original
`start_time` and `end_time` untouched and only the `published_at` stamp
added (and the function is total, so it never throws). -/
theorem template_unknown_type_passthrough (off : ℤ) (now : ℚ) (e : TEvent) (spec : RelSpec)
    (hs : e.relative_time = some spec) (h1 : spec.type ≠ "offset")
    (h2 : spec.type ≠ "sunrise_relative") :
    processOne off now e = { e with published_at := some (formatDateTime off now) } := by
  unfold processOne
  rw [hs]
  simp only [if_neg h1, if_neg h2]

/-- Witness for C7 (amended) on the concrete unknown-typed template. -/
theorem template_unknown_type_passthrough_witness :
    processOne 0 0 tevUnknown = { tevUnknown with published_at := some (formatDateTime 0 0) } :=
  template_unknown_type_passthrough 0 0 tevUnknown specUnknown rfl
    (by decide) (by decide)

/-- Counterexample for C7 as stated: with an unknown spec type the
materialized event keeps its original timestamps ("2026-01-01...") while
the claimed offset fallback would start it at `now` (instant 0, which
formats as "1970-01-01T00:00:00", a different string). -/
theorem template_unknown_type_counterexample :
    (processTemplateEvents 0 0 [tevUnknown]).map (fun e => (e.start_time, e.end_time))
      = [("2026-01-01T00:00:00", "2026-01-01T02:00:00")] ∧
    formatDateTime 0 0 = "1970-01-01T00:00:00" := by
  constructor
  · simp only [processTemplateEvents, List.map_cons, List.map_nil, processOne,
      tevUnknown, specUnknown, String.reduceEq, reduceIte]
  · have h1 : localDay 0 0 = 0 := by norm_num [localDay, msPerDay]
    have hh : localHour 0 0 = 0 := by
      norm_num [localHour, localMsOfDay, localDay, msPerDay, msPerHour]
    have hm : localMinute 0 0 = 0 := by
      norm_num [localMinute, localMinutesOfDay, localMsOfDay, localDay, msPerDay, msPerMin]
    have hsec : ⌊localMsOfDay 0 0 / (1000 : ℚ)⌋ % 60 = 0 := by
      norm_num [localMsOfDay, localDay, msPerDay]
    simp only [formatDateTime]
    rw [h1, hh, hm, hsec]
    decide

/-- C8 (amended): every event carrying a relative-time spec is stamped
with `published_at = now` (formatted), but its `relativeTimeSpec` is
retained, not removed. -/
theorem template_stamps_and_retains_spec (off : ℤ) (now : ℚ) (e : TEvent) (spec : RelSpec)
    (hs : e.relative_time = some spec) :
    (processOne off now e).published_at = some (formatDateTime off now) ∧
    (processOne off now e).relative_time = some spec := by
  obtain ⟨i, ti, st, en, pa, rt⟩ := e
  simp only at hs
  subst hs
  unfold processOne
  dsimp only
  split_ifs <;> exact ⟨rfl, rfl⟩

/-- Witness for C8 (amended) on the concrete offset template. -/
theorem template_stamps_and_retains_spec_witness :
    (processOne 0 0 tevOffset).published_at = some (formatDateTime 0 0) ∧
    (processOne 0 0 tevOffset).relative_time = some specOffset :=
  template_stamps_and_retains_spec 0 0 tevOffset specOffset rfl

/-- Counterexample for C8 as stated: the materialized offset template
still carries its `relative_time` spec in the output (which the claim
says must be removed). -/
theorem template_retains_relative_time_counterexample :
    (processTemplateEvents 0 0 [tevOffset]).map (fun e => e.relative_time)
      = [some specOffset] ∧ (some specOffset : Option RelSpec) ≠ none := by
  constructor
  · simp only [processTemplateEvents, List.map_cons, List.map_nil, processOne,
      tevOffset, specOffset, String.reduceEq, reduceIte, Option.getD]
    norm_num
  · simp
